import Mathlib

/-!
Verification of the generic lazy-iteration protocol of `src/hb-iter.hh`
(HarfBuzz's unified iterator framework): the fallback derivations, the lazy
adaptors (map, filter, zip, enumerate, iota) and the consuming terminals
(reduce, all/any/none).

The C++ template machinery is shallowly embedded: each iterator type becomes a
Lean structure holding exactly the data members of the C++ struct, and each
`__method__` becomes a Lean function on that structure.  Predicates (`Pred`)
and projections (`Proj`) are embedded as Lean functions; the `hb_has`,
`hb_match` and `hb_get` dispatch helpers of `hb-algs.hh` (not part of the
sources here) reduce, for a function argument, to plain application, which is
how they are inlined below.  Machine `unsigned` counts are modelled as `Nat`,
and the integer instantiation of `hb_iota_iter_t` as `Int`, with C++ truncated
division and remainder (`Int.tdiv` / `Int.tmod`).
-/

/-- Modelled from the spec: the ground RandomAccess sequence (`hb_array_t`,
declared but not defined in these sources; the spec's §4.1 "Sequence" with the
RandomAccess minimal subset).  A borrowed underlying source (`data`) plus an
independent cursor (`pos`); copies never share cursor state. -/
structure ArrayIter (α : Type) where
  data : List α
  pos : Nat
deriving DecidableEq, Repr

/-- `hasMore()`: a RandomAccess sequence has more items while the cursor is
before the end of the borrowed source. -/
def ArrayIter.more (it : ArrayIter α) : Bool :=
  it.pos < it.data.length

/-- `length()`: O(1) for a RandomAccess sequence, remaining item count. -/
def ArrayIter.len (it : ArrayIter α) : Nat :=
  it.data.length - it.pos

/-- `current()` / `operator *`: the item under the cursor.  Dereferencing past
exhaustion is a contract violation (UB in C++); the model returns `default`
there. -/
def ArrayIter.item [Inhabited α] (it : ArrayIter α) : α :=
  it.data.getD it.pos default

/-- `itemAt(i)` / `operator []`. -/
def ArrayIter.item_at [Inhabited α] (it : ArrayIter α) (i : Nat) : α :=
  it.data.getD (it.pos + i) default

/-- `advanceOne()` / `operator ++`. -/
def ArrayIter.next (it : ArrayIter α) : ArrayIter α :=
  { it with pos := it.pos + 1 }

/-- `retreatOne()` / `operator --`. -/
def ArrayIter.prev (it : ArrayIter α) : ArrayIter α :=
  { it with pos := it.pos - 1 }

/-- `advanceBy(n)` / `operator +=` for a RandomAccess sequence. -/
def ArrayIter.forward (it : ArrayIter α) (n : Nat) : ArrayIter α :=
  { it with pos := it.pos + n }

/-- `end()` for a RandomAccess sequence: current position advanced by
`length()` (`hb_iter_fallback_mixin_t::__end__`, random-access branch:
`*thiz() + thiz()->len ()`). -/
def ArrayIter.endIter (it : ArrayIter α) : ArrayIter α :=
  it.forward it.len

/-- `operator !=`: two cursors differ when their borrowed source or their
position differs. -/
def ArrayIter.ne (x y : ArrayIter α) : Prop :=
  x.data ≠ y.data ∨ x.pos ≠ y.pos

/-- The items remaining ahead of the cursor (the sequence the iterator still
denotes); the abstraction function of the model. -/
def ArrayIter.rest (it : ArrayIter α) : List α :=
  it.data.drop it.pos

theorem ArrayIter.rest_length (it : ArrayIter α) : it.rest.length = it.len := by
  simp [ArrayIter.rest, ArrayIter.len]

theorem ArrayIter.more_iff (it : ArrayIter α) : it.more = true ↔ it.rest ≠ [] := by
  rw [← List.length_pos, ArrayIter.rest_length]
  simp [ArrayIter.more, ArrayIter.len]

theorem ArrayIter.not_more_iff (it : ArrayIter α) : it.more = false ↔ it.rest = [] := by
  rw [← Bool.not_eq_true, not_iff_comm, ArrayIter.more_iff]

theorem ArrayIter.item_eq_headD [Inhabited α] (it : ArrayIter α) :
    it.item = it.rest.headD default := by
  simp [ArrayIter.item, ArrayIter.rest, List.getD, List.headD_eq_head?, List.head?_drop,
    List.get?_eq_getElem?]

theorem ArrayIter.rest_next (it : ArrayIter α) : it.next.rest = it.rest.tail := by
  simp [ArrayIter.rest, ArrayIter.next, ← List.tail_drop]

/-- Decomposing one step of a non-exhausted cursor: it has more, its current
item is the head of the remainder, and advancing leaves the tail. -/
theorem ArrayIter.rest_cons [Inhabited α] {it : ArrayIter α} {x : α} {xs : List α}
    (h : it.rest = x :: xs) : it.more = true ∧ it.item = x ∧ it.next.rest = xs := by
  refine ⟨(ArrayIter.more_iff it).2 (by simp [h]), ?_, ?_⟩
  · rw [ArrayIter.item_eq_headD, h]; rfl
  · rw [ArrayIter.rest_next, h]; rfl

/-!
### `hb_filter_iter_t` (src/hb-iter.hh:375-398)

State: an underlying iterator `it`, a predicate `p` and a projection `f`.  The
constructor (line 382) runs `while (it && !hb_has (p, hb_get (f, *it))) ++it;`,
`__next__` (line 388) runs `do ++it; while (it && !p (f (*it)));`, and
`__prev__` (line 389) is a bare `--it`.
-/

/-- The number of steps the filter skip loop
`while (it && !p (f (*it))) ++it` takes from a cursor whose remainder is the
given list: one per leading item failing the test. -/
def skipCount (q : α → Bool) : List α → Nat
  | [] => 0
  | x :: xs => if q x then 0 else skipCount q xs + 1

/-- The filter skip loop itself: advance the underlying cursor past every
leading item failing `q`. -/
def filterAdvance (q : α → Bool) (it : ArrayIter α) : ArrayIter α :=
  { it with pos := it.pos + skipCount q it.rest }

structure FilterIter (α β : Type) where
  it : ArrayIter α
  p : β → Bool
  f : α → β

/-- The test the filter applies to an item: `hb_has (p, hb_get (f, *it))`,
i.e. `p (f item)`. -/
def FilterIter.q (F : FilterIter α β) : α → Bool :=
  fun x => F.p (F.f x)

/-- The constructor `hb_filter_iter_t (it_, p_, f_)` (line 381-382): store the
configuration and eagerly skip to the first matching item. -/
def FilterIter.mk' (p : β → Bool) (f : α → β) (it : ArrayIter α) : FilterIter α β :=
  ⟨filterAdvance (fun x => p (f x)) it, p, f⟩

/-- `__more__` (line 387): delegate to the underlying cursor. -/
def FilterIter.more (F : FilterIter α β) : Bool :=
  F.it.more

/-- `__item__` (line 386): the underlying current item. -/
def FilterIter.item [Inhabited α] (F : FilterIter α β) : α :=
  F.it.item

/-- `__next__` (line 388): advance once, then skip past non-matching items. -/
def FilterIter.next (F : FilterIter α β) : FilterIter α β :=
  { F with it := filterAdvance F.q F.it.next }

/-- `__prev__` (line 389): a bare `--it` on the underlying cursor, with no
predicate re-check. -/
def FilterIter.prev (F : FilterIter α β) : FilterIter α β :=
  { F with it := F.it.prev }

/-- The forward-traversal denotation of a filter sequence: the items yielded by
`__item__`/`__next__` until `__more__` goes false.  `fuel` bounds the number of
yields; the remaining length of the underlying cursor always suffices. -/
def FilterIter.toListAux [Inhabited α] : Nat → FilterIter α β → List α
  | 0, _ => []
  | fuel + 1, F => if F.more then F.item :: FilterIter.toListAux fuel F.next else []

def FilterIter.toList [Inhabited α] (F : FilterIter α β) : List α :=
  FilterIter.toListAux F.it.len F

theorem skipCount_drop (q : α → Bool) :
    ∀ l : List α, l.drop (skipCount q l) = l.dropWhile (fun x => !q x)
  | [] => rfl
  | x :: xs => by
    by_cases hq : q x <;> simp [skipCount, List.dropWhile, hq, skipCount_drop q xs]

theorem length_dropWhile_le' (q : α → Bool) :
    ∀ l : List α, (l.dropWhile q).length ≤ l.length
  | [] => Nat.le_refl _
  | x :: xs => by
    by_cases hq : q x <;>
      simp [List.dropWhile, hq, Nat.le_succ_of_le (length_dropWhile_le' q xs)]

/-- What the skip loop of the filter leaves ahead of the cursor: exactly the
remainder with its non-matching head segment dropped. -/
theorem filterAdvance_rest (q : α → Bool) (it : ArrayIter α) :
    (filterAdvance q it).rest = it.rest.dropWhile (fun x => !q x) := by
  show it.data.drop (it.pos + skipCount q it.rest) = _
  rw [← List.drop_drop]
  exact skipCount_drop q it.rest

theorem filterAdvance_len_le (q : α → Bool) (it : ArrayIter α) :
    (filterAdvance q it).len ≤ it.len := by
  simp only [filterAdvance, ArrayIter.len]
  omega

/-- Splitting a list at its first `q`-match: if the non-matching head segment
ends (`dropWhile` of the negation), the head of what is left satisfies `q` and
`filter q` of the whole list starts there; if it never ends, `filter q` is
empty. -/
theorem dropWhile_filter_split (q : α → Bool) :
    ∀ l : List α,
      (l.dropWhile (fun x => !q x) = [] → l.filter q = []) ∧
      (∀ y ys, l.dropWhile (fun x => !q x) = y :: ys →
        q y = true ∧ l.filter q = y :: ys.filter q)
  | [] => ⟨fun _ => rfl, fun y ys h => by simp [List.dropWhile] at h⟩
  | x :: xs => by
    by_cases hq : q x
    · refine ⟨fun h => by simp [List.dropWhile, hq] at h, fun y ys h => ?_⟩
      simp only [List.dropWhile, hq, Bool.not_true] at h
      obtain ⟨rfl, rfl⟩ : x = y ∧ xs = ys := by
        simpa using congrArg (fun l => (l.head?, l.tail)) h
      exact ⟨hq, by simp [List.filter, hq]⟩
    · have ih := dropWhile_filter_split q xs
      refine ⟨fun h => ?_, fun y ys h => ?_⟩
      · simp only [List.dropWhile, hq, Bool.not_false] at h
        simp [List.filter, hq, ih.1 h]
      · simp only [List.dropWhile, hq, Bool.not_false] at h
        exact ⟨(ih.2 y ys h).1, by simp [List.filter, hq, (ih.2 y ys h).2]⟩

theorem FilterIter.toListAux_adv [Inhabited α] (p : β → Bool) (f : α → β) :
    ∀ (fuel : Nat) (it : ArrayIter α),
      (filterAdvance (fun x => p (f x)) it).len ≤ fuel →
      FilterIter.toListAux fuel ⟨filterAdvance (fun x => p (f x)) it, p, f⟩ =
        it.rest.filter (fun x => p (f x))
  | 0, it, hfuel => by
    have hrest : (filterAdvance (fun x => p (f x)) it).rest = [] := by
      have := (filterAdvance (fun x => p (f x)) it).rest_length
      exact List.eq_nil_of_length_eq_zero (by omega)
    rw [filterAdvance_rest] at hrest
    exact ((dropWhile_filter_split _ it.rest).1 hrest).symm
  | fuel + 1, it, hfuel => by
    rcases hdw : it.rest.dropWhile (fun x => !(p (f x))) with _ | ⟨y, ys⟩
    · have hrest : (filterAdvance (fun x => p (f x)) it).rest = [] := by
        rw [filterAdvance_rest]; exact hdw
      have hmore : (filterAdvance (fun x => p (f x)) it).more = false :=
        (ArrayIter.not_more_iff _).2 hrest
      rw [(dropWhile_filter_split _ it.rest).1 hdw]
      simp [FilterIter.toListAux, FilterIter.more, hmore]
    · have hrest : (filterAdvance (fun x => p (f x)) it).rest = y :: ys := by
        rw [filterAdvance_rest]; exact hdw
      obtain ⟨hmore, hitem, hnextrest⟩ := ArrayIter.rest_cons hrest
      have hsplit := (dropWhile_filter_split (fun x => p (f x)) it.rest).2 y ys hdw
      have hlen : (filterAdvance (fun x => p (f x))
          (filterAdvance (fun x => p (f x)) it).next).len ≤ fuel := by
        have h1 := filterAdvance_len_le (fun x => p (f x))
          (filterAdvance (fun x => p (f x)) it).next
        have h2 : (filterAdvance (fun x => p (f x)) it).next.len = ys.length := by
          rw [← ArrayIter.rest_length, hnextrest]
        have h3 : (filterAdvance (fun x => p (f x)) it).len = ys.length + 1 := by
          rw [← ArrayIter.rest_length, hrest]; rfl
        omega
      have ih := FilterIter.toListAux_adv p f fuel
        (filterAdvance (fun x => p (f x)) it).next hlen
      simp only [FilterIter.toListAux, FilterIter.more, FilterIter.item, FilterIter.next,
        FilterIter.q, hmore, if_true]
      rw [hitem]
      show y :: FilterIter.toListAux fuel
          ⟨filterAdvance (fun x => p (f x)) (filterAdvance (fun x => p (f x)) it).next, p, f⟩ =
        List.filter (fun x => p (f x)) it.rest
      rw [ih, hnextrest, hsplit.2]

theorem FilterIter.toList_mk [Inhabited α] (p : β → Bool) (f : α → β) (it : ArrayIter α) :
    (FilterIter.mk' p f it).toList = it.rest.filter (fun x => p (f x)) :=
  FilterIter.toListAux_adv p f (filterAdvance (fun x => p (f x)) it).len it (Nat.le_refl _)

/-- **C2** (amended).  Forward traversal of `filter (s, p)` — construction
followed by `__next__` steps — yields exactly the items of `s` satisfying
`p ∘ f`, hence an order-preserving subsequence of `s`'s items, every one of
which satisfies the predicate.  (As stated the claim also covered `__prev__`,
which the code implements as a bare `--it` with no predicate re-check, so a
retreat can land on a non-matching item; see the counterexample.) -/
theorem hb_filter_forward_subsequence [Inhabited α] (p : β → Bool) (f : α → β)
    (it : ArrayIter α) :
    (FilterIter.mk' p f it).toList = it.rest.filter (fun x => p (f x)) ∧
    List.Sublist (FilterIter.mk' p f it).toList it.rest ∧
    ∀ x ∈ (FilterIter.mk' p f it).toList, p (f x) = true := by
  refine ⟨FilterIter.toList_mk p f it, ?_, ?_⟩
  · rw [FilterIter.toList_mk]
    exact List.filter_sublist it.rest
  · intro x hx
    rw [FilterIter.toList_mk] at hx
    exact (List.mem_filter.1 hx).2

/-- Witness for C2's amended theorem: on the source `[2, 1, 4]` with predicate
"even", the item 2 is yielded and indeed satisfies the predicate. -/
theorem hb_filter_forward_subsequence_witness :
    ((fun n : Nat => n % 2 == 0) (id 2)) = true :=
  (hb_filter_forward_subsequence (fun n => n % 2 == 0) id ⟨[2, 1, 4], 0⟩).2.2 2 (by decide)

/-- **C2** counterexample.  The claim as stated ("under any traversal operation
the filter sequence supports, including retreat") is false: over the source
`[2, 1, 4]` with predicate "even", construction lands on 2, one `__next__`
lands on 4, and a `__prev__` (`hb_filter_iter_t::__prev__`, a bare `--it`)
lands on 1 — the filter sequence then yields 1, which fails the predicate. -/
theorem hb_filter_prev_counterexample :
    FilterIter.item (FilterIter.prev (FilterIter.next
      (FilterIter.mk' (fun n => n % 2 == 0) id ⟨[2, 1, 4], 0⟩))) = 1 ∧
    (fun n : Nat => n % 2 == 0) 1 = false := by decide

/-- **C9**.  The `hb_filter_iter_t` constructor eagerly advances past every
leading non-matching item: the remainder after construction is the input's
remainder with its non-matching head segment dropped; when no item matches the
constructed sequence is immediately exhausted (a valid, non-error outcome —
the model is total); and when it is not exhausted its current item satisfies
`pred (proj item)`. -/
theorem hb_filter_eager_construction [Inhabited α] (p : β → Bool) (f : α → β)
    (it : ArrayIter α) :
    (FilterIter.mk' p f it).it.rest = it.rest.dropWhile (fun x => !p (f x)) ∧
    ((∀ x ∈ it.rest, p (f x) = false) → FilterIter.more (FilterIter.mk' p f it) = false) ∧
    (FilterIter.more (FilterIter.mk' p f it) = true →
      p (f (FilterIter.item (FilterIter.mk' p f it))) = true) := by
  refine ⟨filterAdvance_rest _ it, ?_, ?_⟩
  · intro hall
    apply (ArrayIter.not_more_iff _).2
    rw [show (FilterIter.mk' p f it).it = filterAdvance (fun x => p (f x)) it from rfl,
      filterAdvance_rest]
    exact List.dropWhile_eq_nil_iff.2 (fun x hx => by simp [hall x hx])
  · intro hmore
    have hne := (ArrayIter.more_iff (FilterIter.mk' p f it).it).1 hmore
    rcases hrest : (FilterIter.mk' p f it).it.rest with _ | ⟨y, ys⟩
    · exact absurd hrest hne
    · have hdw : it.rest.dropWhile (fun x => !p (f x)) = y :: ys := by
        rw [← filterAdvance_rest (fun x => p (f x)) it]
        exact hrest
      have hsplit := (dropWhile_filter_split (fun x => p (f x)) it.rest).2 y ys hdw
      have hitem := (ArrayIter.rest_cons hrest).2.1
      show p (f ((FilterIter.mk' p f it).it.item)) = true
      rw [hitem]
      exact hsplit.1

/-- Witness for C9's theorem: over the all-odd source `[1, 3, 5]` with
predicate "even", the filter sequence is exhausted immediately after
construction. -/
theorem hb_filter_eager_construction_witness :
    FilterIter.more (FilterIter.mk' (fun n : Nat => n % 2 == 0) id ⟨[1, 3, 5], 0⟩) = false :=
  (hb_filter_eager_construction (fun n => n % 2 == 0) id ⟨[1, 3, 5], 0⟩).2.1 (by decide)

theorem ArrayIter.more_of_len_pos {it : ArrayIter α} (h : 0 < it.len) : it.more = true :=
  (ArrayIter.more_iff it).2 (List.length_pos.1 (by rw [ArrayIter.rest_length]; exact h))

/-!
### `hb_zip_iter_t` (src/hb-iter.hh:457-487)

State: the two zipped iterators `a` and `b`.  `hb_min` and `hb_pair_t` of
`hb-algs.hh` are embedded as `min` and `Prod`.
-/

structure ZipIter (α β : Type) where
  a : ArrayIter α
  b : ArrayIter β
deriving DecidableEq, Repr

/-- `__more__` (line 474): `a && b` — more only while both inputs have more. -/
def ZipIter.more (z : ZipIter α β) : Bool :=
  z.a.more && z.b.more

/-- `__len__` (line 475): `hb_min (a.len (), b.len ())`. -/
def ZipIter.len (z : ZipIter α β) : Nat :=
  min z.a.len z.b.len

/-- `__item__` (line 472): the pair of current items. -/
def ZipIter.item [Inhabited α] [Inhabited β] (z : ZipIter α β) : α × β :=
  (z.a.item, z.b.item)

/-- `__item_at__` (line 473): positional pair `(a[i], b[i])`. -/
def ZipIter.item_at [Inhabited α] [Inhabited β] (z : ZipIter α β) (i : Nat) : α × β :=
  (z.a.item_at i, z.b.item_at i)

/-- `__next__` (line 476): advance both inputs. -/
def ZipIter.next (z : ZipIter α β) : ZipIter α β :=
  ⟨z.a.next, z.b.next⟩

/-- `__end__` (line 480): `hb_zip_iter_t (a.end (), b.end ())` — each input at
its own end. -/
def ZipIter.endIter (z : ZipIter α β) : ZipIter α β :=
  ⟨z.a.endIter, z.b.endIter⟩

/-- `operator !=` (line 481-482): `a != o.a || b != o.b`. -/
def ZipIter.ne (z w : ZipIter α β) : Prop :=
  ArrayIter.ne z.a w.a ∨ ArrayIter.ne z.b w.b

/-- Forward-traversal denotation of a zip sequence (items yielded by
`__item__`/`__next__` until `__more__` goes false); `fuel` bounds the yields
and `len` always suffices. -/
def ZipIter.toListAux [Inhabited α] [Inhabited β] : Nat → ZipIter α β → List (α × β)
  | 0, _ => []
  | fuel + 1, z => if z.more then z.item :: ZipIter.toListAux fuel z.next else []

def ZipIter.toList [Inhabited α] [Inhabited β] (z : ZipIter α β) : List (α × β) :=
  ZipIter.toListAux z.len z

/-- The loop `while (it) ++it;` on a zip sequence: advance until exhausted
(this is how a forward pass reaches the exhausted cursor). -/
def ZipIter.exhaustAux : Nat → ZipIter α β → ZipIter α β
  | 0, z => z
  | fuel + 1, z => if z.more then ZipIter.exhaustAux fuel z.next else z

def ZipIter.exhaust (z : ZipIter α β) : ZipIter α β :=
  ZipIter.exhaustAux z.len z

theorem ZipIter.toListAux_zip [Inhabited α] [Inhabited β] :
    ∀ (fuel : Nat) (a : ArrayIter α) (b : ArrayIter β),
      min a.len b.len ≤ fuel →
      ZipIter.toListAux fuel ⟨a, b⟩ = List.zip a.rest b.rest
  | 0, a, b, hfuel => by
    have h0 : a.len = 0 ∨ b.len = 0 := by omega
    rcases h0 with h | h
    · have : a.rest = [] := List.eq_nil_of_length_eq_zero (by rw [ArrayIter.rest_length, h])
      rw [this]
      rfl
    · have : b.rest = [] := List.eq_nil_of_length_eq_zero (by rw [ArrayIter.rest_length, h])
      rw [this, List.zip_nil_right]
      rfl
  | fuel + 1, a, b, hfuel => by
    rcases ha : a.rest with _ | ⟨x, xs⟩
    · have hmore : a.more = false := (ArrayIter.not_more_iff a).2 ha
      simp [ZipIter.toListAux, ZipIter.more, hmore]
    · rcases hb : b.rest with _ | ⟨y, ys⟩
      · have hmore : b.more = false := (ArrayIter.not_more_iff b).2 hb
        rw [List.zip_nil_right]
        simp [ZipIter.toListAux, ZipIter.more, hmore]
      · obtain ⟨hamore, haitem, hanext⟩ := ArrayIter.rest_cons ha
        obtain ⟨hbmore, hbitem, hbnext⟩ := ArrayIter.rest_cons hb
        have hlen : min a.next.len b.next.len ≤ fuel := by
          have h1 : a.next.len = xs.length := by rw [← ArrayIter.rest_length, hanext]
          have h2 : b.next.len = ys.length := by rw [← ArrayIter.rest_length, hbnext]
          have h3 : a.len = xs.length + 1 := by rw [← ArrayIter.rest_length, ha]; rfl
          have h4 : b.len = ys.length + 1 := by rw [← ArrayIter.rest_length, hb]; rfl
          omega
        have ih := ZipIter.toListAux_zip fuel a.next b.next hlen
        simp only [ZipIter.toListAux, ZipIter.more, ZipIter.item, ZipIter.next,
          hamore, hbmore, Bool.and_self, if_true]
        rw [haitem, hbitem, ih, hanext, hbnext, List.zip_cons_cons]

theorem ZipIter.exhaustAux_pos :
    ∀ (fuel : Nat) (a : ArrayIter α) (b : ArrayIter β),
      fuel = min a.len b.len →
      ZipIter.exhaustAux fuel ⟨a, b⟩ =
        ⟨⟨a.data, a.pos + fuel⟩, ⟨b.data, b.pos + fuel⟩⟩
  | 0, a, b, _ => by
    show (⟨a, b⟩ : ZipIter α β) = _
    rfl
  | fuel + 1, a, b, hfuel => by
    have hamore : a.more = true := ArrayIter.more_of_len_pos (by omega)
    have hbmore : b.more = true := ArrayIter.more_of_len_pos (by omega)
    have hmore : ZipIter.more ⟨a, b⟩ = true := by
      simp [ZipIter.more, hamore, hbmore]
    have hlen : fuel = min a.next.len b.next.len := by
      have h1 : a.next.len = a.len - 1 := by
        simp [ArrayIter.next, ArrayIter.len]
        omega
      have h2 : b.next.len = b.len - 1 := by
        simp [ArrayIter.next, ArrayIter.len]
        omega
      omega
    have ih := ZipIter.exhaustAux_pos fuel a.next b.next hlen
    show (if ZipIter.more ⟨a, b⟩ then ZipIter.exhaustAux fuel (ZipIter.next ⟨a, b⟩)
      else ⟨a, b⟩) = _
    rw [hmore, if_pos rfl]
    show ZipIter.exhaustAux fuel ⟨a.next, b.next⟩ = _
    rw [ih]
    show (⟨⟨a.data, a.pos + 1 + fuel⟩, ⟨b.data, b.pos + 1 + fuel⟩⟩ : ZipIter α β) = _
    congr 2 <;> omega

/-- **C4**.  For all finite sequences `a` and `b`, `zip (a, b)` pairs items
positionally (its forward traversal yields exactly `List.zip` of the two
remainders), its `length ()` equals `min (length a, length b)` and also equals
the number of items actually yielded, and it is exhausted exactly when either
input is exhausted. -/
theorem hb_zip_pairs_min_length [Inhabited α] [Inhabited β]
    (a : ArrayIter α) (b : ArrayIter β) :
    ZipIter.toList ⟨a, b⟩ = List.zip a.rest b.rest ∧
    ZipIter.len ⟨a, b⟩ = min a.len b.len ∧
    (ZipIter.toList ⟨a, b⟩).length = min a.len b.len ∧
    (ZipIter.more ⟨a, b⟩ = false ↔ (a.more = false ∨ b.more = false)) := by
  have htl : ZipIter.toList ⟨a, b⟩ = List.zip a.rest b.rest :=
    ZipIter.toListAux_zip (min a.len b.len) a b (Nat.le_refl _)
  refine ⟨htl, rfl, ?_, ?_⟩
  · rw [htl, List.length_zip, ArrayIter.rest_length, ArrayIter.rest_length]
  · cases ha : a.more <;> cases hb : b.more <;> simp [ZipIter.more, ha, hb]

/-- Witness for C4's theorem: `zip ([10, 20, 30], [5, 6])` yields
`[(10, 5), (20, 6)]` and its `length ()` is `min 3 2 = 2`. -/
theorem hb_zip_pairs_min_length_witness :
    ZipIter.toList ⟨(⟨[10, 20, 30], 0⟩ : ArrayIter Nat), (⟨[5, 6], 0⟩ : ArrayIter Nat)⟩ =
      [(10, 5), (20, 6)] ∧
    ZipIter.len ⟨(⟨[10, 20, 30], 0⟩ : ArrayIter Nat), (⟨[5, 6], 0⟩ : ArrayIter Nat)⟩ = 2 := by
  have h := hb_zip_pairs_min_length (⟨[10, 20, 30], 0⟩ : ArrayIter Nat)
    (⟨[5, 6], 0⟩ : ArrayIter Nat)
  exact ⟨by rw [h.1]; decide, by rw [h.2.1]; decide⟩

/-- **C10**.  For zip inputs of different (remaining) lengths, `__end__` pairs
each input's own end, while the forward pass `while (it) ++it;` stops as soon
as the shorter input is exhausted: the resulting exhausted iterator leaves the
longer input short of its own end, so under `operator !=` it never compares
equal to `end ()`. -/
theorem hb_zip_end_unreachable (a : ArrayIter α) (b : ArrayIter β)
    (h : a.len ≠ b.len) :
    ZipIter.more (ZipIter.exhaust ⟨a, b⟩) = false ∧
    (a.len < b.len → (ZipIter.exhaust ⟨a, b⟩).b.more = true) ∧
    (b.len < a.len → (ZipIter.exhaust ⟨a, b⟩).a.more = true) ∧
    ZipIter.ne (ZipIter.exhaust ⟨a, b⟩) (ZipIter.endIter ⟨a, b⟩) := by
  have hex : ZipIter.exhaust ⟨a, b⟩ =
      ⟨⟨a.data, a.pos + min a.len b.len⟩, ⟨b.data, b.pos + min a.len b.len⟩⟩ :=
    ZipIter.exhaustAux_pos (min a.len b.len) a b rfl
  rw [hex]
  have hla : a.len = a.data.length - a.pos := rfl
  have hlb : b.len = b.data.length - b.pos := rfl
  refine ⟨?_, ?_, ?_, ?_⟩
  · simp only [ZipIter.more, ArrayIter.more, Bool.and_eq_false_iff,
      decide_eq_false_iff_not, Nat.not_lt]
    omega
  · intro hab
    simp only [ArrayIter.more, decide_eq_true_eq]
    omega
  · intro hba
    simp only [ArrayIter.more, decide_eq_true_eq]
    omega
  · rcases Nat.lt_or_ge a.len b.len with hab | hge
    · refine Or.inr (Or.inr ?_)
      show b.pos + min a.len b.len ≠ b.pos + b.len
      omega
    · refine Or.inl (Or.inr ?_)
      show a.pos + min a.len b.len ≠ a.pos + a.len
      omega

/-- Witness for C10's theorem: exhausting `zip ([1, 2, 3], [7])` by forward
traversal stops with the first input at position 1 of 3, which differs from
`end ()` where it sits at position 3. -/
theorem hb_zip_end_unreachable_witness :
    ZipIter.ne
      (ZipIter.exhaust ⟨(⟨[1, 2, 3], 0⟩ : ArrayIter Nat), (⟨[7], 0⟩ : ArrayIter Nat)⟩)
      (ZipIter.endIter ⟨(⟨[1, 2, 3], 0⟩ : ArrayIter Nat), (⟨[7], 0⟩ : ArrayIter Nat)⟩) :=
  (hb_zip_end_unreachable (⟨[1, 2, 3], 0⟩ : ArrayIter Nat) (⟨[7], 0⟩ : ArrayIter Nat)
    (by decide)).2.2.2

/-!
### `hb_iota_iter_t` (src/hb-iter.hh:577-623)

The integer instantiation (`T = S = int`): values are `Int`, `%` is C++
truncated remainder `Int.tmod`, `/` is truncated division `Int.tdiv`.  The C++
field `end` is a reserved word in Lean and is named `endv`.  `__len__` returns
`unsigned` in C++; the model keeps the `Int` value of the expression
`(end - v) / step` (the conversion is value-preserving on the nonnegative
domain the theorems cover).
-/

structure IotaIter where
  v : Int
  endv : Int
  step : Int
deriving DecidableEq, Repr

/-- `end_for (start, end, step)` (lines 599-606):
`res = (end - start) % step; if (!res) return end; end += step - res;`. -/
def IotaIter.end_for (start endv step : Int) : Int :=
  let res := (endv - start).tmod step
  if res = 0 then endv else endv + (step - res)

/-- The constructor (line 581): store `start`, the normalized end bound, and
`step`. -/
def IotaIter.mk' (start endv step : Int) : IotaIter :=
  ⟨start, IotaIter.end_for start endv step, step⟩

/-- `__more__` (line 588): `v != end`. -/
def IotaIter.more (it : IotaIter) : Bool :=
  it.v ≠ it.endv

/-- `__len__` (line 589): `(end - v) / step`. -/
def IotaIter.len (it : IotaIter) : Int :=
  (it.endv - it.v).tdiv it.step

/-- `__item__` (line 586): `v`. -/
def IotaIter.item (it : IotaIter) : Int :=
  it.v

/-- `__item_at__` (line 587): `v + j * step`. -/
def IotaIter.item_at (it : IotaIter) (j : Nat) : Int :=
  it.v + j * it.step

/-- `__next__` (line 590): `v += step`. -/
def IotaIter.next (it : IotaIter) : IotaIter :=
  { it with v := it.v + it.step }

/-- `__forward__` (line 591): `v += n * step`. -/
def IotaIter.forward (it : IotaIter) (n : Nat) : IotaIter :=
  { it with v := it.v + n * it.step }

/-- The temporary that `__end__` (line 594) constructs — and then discards:
the body is `{ hb_iota_iter_t (end, end, step); }` with no `return`, so the
C++ function falls off its end and its actual return value is undefined.
This definition is the value that statement builds. -/
def IotaIter.end_constructed (it : IotaIter) : IotaIter :=
  ⟨it.endv, it.endv, it.step⟩

/-- Forward-traversal denotation of an iota sequence: values yielded by
`__item__`/`__next__` until `__more__` goes false, fuel-bounded. -/
def IotaIter.toListAux : Nat → IotaIter → List Int
  | 0, _ => []
  | fuel + 1, it => if it.more then it.v :: IotaIter.toListAux fuel it.next else []

/-- Forward traversal fueled by `__len__` (clamped to a count). -/
def IotaIter.toList (it : IotaIter) : List Int :=
  IotaIter.toListAux it.len.toNat it

/-- Characterization of `end_for` on the domain `step > 0`, `start ≤ end`: the
result is at least `end`, differs from `start` by an exact multiple of `step`,
stays below `end + step`, and is the least such value. -/
theorem IotaIter.end_for_spec (start e0 step : Int) (hstep : 0 < step) (hse : start ≤ e0) :
    e0 ≤ IotaIter.end_for start e0 step ∧
    step ∣ (IotaIter.end_for start e0 step - start) ∧
    IotaIter.end_for start e0 step < e0 + step ∧
    (∀ y, e0 ≤ y → step ∣ (y - start) → IotaIter.end_for start e0 step ≤ y) := by
  have hmod : (e0 - start).tmod step = (e0 - start) % step :=
    Int.tmod_eq_emod (by omega) (by omega)
  unfold IotaIter.end_for
  rw [hmod]
  have hr0 : 0 ≤ (e0 - start) % step := Int.emod_nonneg _ (by omega)
  have hrlt : (e0 - start) % step < step := Int.emod_lt_of_pos _ hstep
  have hdvd : step ∣ (e0 - start - (e0 - start) % step) := Int.dvd_sub_of_emod_eq rfl
  have hq := Int.emod_add_ediv (e0 - start) step
  by_cases hz : (e0 - start) % step = 0
  · rw [if_pos hz]
    refine ⟨le_refl _, by simpa [hz] using hdvd, by omega, fun y hy _ => hy⟩
  · rw [if_neg hz]
    refine ⟨by omega, ?_, by omega, ?_⟩
    · have heq : e0 + (step - (e0 - start) % step) - start =
          (e0 - start - (e0 - start) % step) + step := by ring
      rw [heq]
      exact dvd_add hdvd ⟨1, by ring⟩
    · intro y hy hydvd
      by_contra hlt
      push_neg at hlt
      obtain ⟨k, hk⟩ := hydvd
      have e2 : step * ((e0 - start) / step) = e0 - start - (e0 - start) % step := by omega
      have h1 : step * (k - (e0 - start) / step) = (y - e0) + (e0 - start) % step := by
        rw [mul_sub]
        linarith [hk, e2]
      have hrpos : 0 < (e0 - start) % step := lt_of_le_of_ne hr0 (Ne.symm hz)
      have h2 : 1 ≤ k - (e0 - start) / step := by
        by_contra h2'
        push_neg at h2'
        have : step * (k - (e0 - start) / step) ≤ 0 :=
          mul_nonpos_of_nonneg_of_nonpos (le_of_lt hstep) (by omega)
        linarith [h1]
      have h3 : step ≤ step * (k - (e0 - start) / step) := by
        calc step = step * 1 := by ring
        _ ≤ step * (k - (e0 - start) / step) :=
          mul_le_mul_of_nonneg_left h2 (le_of_lt hstep)
      linarith [h1, h3]

/-- Forward traversal of an iota state whose end bound lies exactly `n` steps
ahead yields the arithmetic progression of those `n` values. -/
theorem IotaIter.toListAux_arith :
    ∀ (n : Nat) (v step : Int), 0 < step →
      IotaIter.toListAux n ⟨v, v + n * step, step⟩ =
        (List.range n).map (fun (i : Nat) => v + (i : Int) * step)
  | 0, v, step, _ => by simp [IotaIter.toListAux]
  | n + 1, v, step, hs => by
    have hpos : 0 < ((n + 1 : Nat) : Int) * step := by positivity
    have hmore : IotaIter.more ⟨v, v + ((n + 1 : Nat) : Int) * step, step⟩ = true := by
      simp only [IotaIter.more, decide_eq_true_eq]
      omega
    have hnext : IotaIter.next ⟨v, v + ((n + 1 : Nat) : Int) * step, step⟩ =
        ⟨v + step, (v + step) + (n : Int) * step, step⟩ := by
      simp only [IotaIter.next]
      congr 1
      push_cast
      ring
    have ih := IotaIter.toListAux_arith n (v + step) step hs
    show (if IotaIter.more ⟨v, v + ((n + 1 : Nat) : Int) * step, step⟩ then
        v :: IotaIter.toListAux n (IotaIter.next ⟨v, v + ((n + 1 : Nat) : Int) * step, step⟩)
      else []) = _
    rw [hmore, if_pos rfl, hnext, ih, List.range_succ_eq_map, List.map_cons, List.map_map]
    congr 1
    · push_cast
      ring
    · refine List.map_congr_left fun i _ => ?_
      show v + step + (i : Int) * step = v + ((Nat.succ i : Nat) : Int) * step
      push_cast
      ring

/-- **C3** (amended: for positive step and end ≥ start).  `end_for` normalizes
the end bound upward to the smallest value ≥ end that differs from start by an
exact multiple of step; `__len__`'s division is exact; forwarding by `length()`
steps lands exactly on the bound (exhaustion, no overshoot); the values yielded
are precisely the arithmetic progression and all lie in `[start, end)`; and in
particular `iota (0, 10, 3)` yields `[0, 3, 6, 9]` with `length () = 4` and
internal end bound 12.  (Outside this domain the C++ truncated `%` breaks the
minimality/upward claim; see the counterexample.) -/
theorem hb_iota_end_normalized (start e0 step : Int) (hstep : 0 < step) (hse : start ≤ e0) :
    (e0 ≤ (IotaIter.mk' start e0 step).endv ∧
      step ∣ ((IotaIter.mk' start e0 step).endv - start) ∧
      (∀ y, e0 ≤ y → step ∣ (y - start) → (IotaIter.mk' start e0 step).endv ≤ y)) ∧
    IotaIter.len (IotaIter.mk' start e0 step) * step =
      (IotaIter.mk' start e0 step).endv - start ∧
    IotaIter.more (IotaIter.forward (IotaIter.mk' start e0 step)
      (IotaIter.len (IotaIter.mk' start e0 step)).toNat) = false ∧
    IotaIter.toList (IotaIter.mk' start e0 step) =
      (List.range (IotaIter.len (IotaIter.mk' start e0 step)).toNat).map
        (fun (i : Nat) => start + (i : Int) * step) ∧
    (∀ x ∈ IotaIter.toList (IotaIter.mk' start e0 step), start ≤ x ∧ x < e0) ∧
    IotaIter.toList (IotaIter.mk' 0 10 3) = [0, 3, 6, 9] ∧
    IotaIter.len (IotaIter.mk' 0 10 3) = 4 ∧
    (IotaIter.mk' 0 10 3).endv = 12 := by
  obtain ⟨hge, hdvd, hlt, hmin⟩ := IotaIter.end_for_spec start e0 step hstep hse
  obtain ⟨m, hm⟩ := hdvd
  have hm0 : 0 ≤ m := by
    by_contra hm0'
    push_neg at hm0'
    have := mul_neg_of_pos_of_neg hstep hm0'
    linarith [hm]
  have hlen : IotaIter.len (IotaIter.mk' start e0 step) = m := by
    show (IotaIter.end_for start e0 step - start).tdiv step = m
    rw [Int.tdiv_eq_ediv (by omega) (by omega), hm]
    exact Int.mul_ediv_cancel_left m (by omega)
  have hcast : ((IotaIter.len (IotaIter.mk' start e0 step)).toNat : Int) = m := by
    rw [hlen]
    exact Int.toNat_of_nonneg hm0
  have hendN : IotaIter.end_for start e0 step =
      start + ((IotaIter.len (IotaIter.mk' start e0 step)).toNat : Int) * step := by
    rw [hcast]
    linarith [hm]
  have htl : IotaIter.toList (IotaIter.mk' start e0 step) =
      (List.range (IotaIter.len (IotaIter.mk' start e0 step)).toNat).map
        (fun (i : Nat) => start + (i : Int) * step) := by
    show IotaIter.toListAux (IotaIter.len (IotaIter.mk' start e0 step)).toNat
      ⟨start, IotaIter.end_for start e0 step, step⟩ = _
    rw [hendN]
    exact IotaIter.toListAux_arith _ start step hstep
  refine ⟨⟨hge, ⟨m, hm⟩, hmin⟩, ?_, ?_, htl, ?_, by decide, by decide, by decide⟩
  · have hendv : (IotaIter.mk' start e0 step).endv = IotaIter.end_for start e0 step := rfl
    rw [hlen, hendv]
    linarith [hm]
  · simp only [IotaIter.more, IotaIter.forward, IotaIter.mk', decide_eq_false_iff_not,
      ne_eq, not_not]
    exact hendN.symm
  · intro x hx
    rw [htl] at hx
    obtain ⟨i, hi, rfl⟩ := List.mem_map.1 hx
    have hin : (i : Int) + 1 ≤ ((IotaIter.len (IotaIter.mk' start e0 step)).toNat : Int) := by
      exact_mod_cast List.mem_range.1 hi
    constructor
    · have : 0 ≤ (i : Int) * step := mul_nonneg (Int.natCast_nonneg i) (le_of_lt hstep)
      linarith
    · have hstepmul : (i : Int) * step ≤
          (((IotaIter.len (IotaIter.mk' start e0 step)).toNat : Int) - 1) * step :=
        mul_le_mul_of_nonneg_right (by linarith) (le_of_lt hstep)
      have := hendN
      nlinarith [hlt, hstepmul, hendN]

/-- Witness for C3's amended theorem at `iota (0, 10, 3)`: the `__len__`
division is exact there. -/
theorem hb_iota_end_normalized_witness :
    IotaIter.len (IotaIter.mk' 0 10 3) * 3 = (IotaIter.mk' 0 10 3).endv - 0 :=
  (hb_iota_end_normalized 0 10 3 (by decide) (by decide)).2.1

/-- **C3** counterexample.  The claim quantifies over integers, but with the
C++ truncated `%` the normalization is not "the smallest value ≥ end with
`(end − start)` an exact multiple of step" once `end < start`: at
`(start, end, step) = (0, −7, 3)` the code produces −3 although −6 ≥ −7 and
3 ∣ (−6 − 0); and for a negative step, at `(0, 10, −3)`, it produces 6 < 10 —
not an upward normalization at all. -/
theorem hb_iota_end_normalized_counterexample :
    IotaIter.end_for 0 (-7) 3 = -3 ∧
    (-7 : Int) ≤ -6 ∧ (3 : Int) ∣ (-6 - 0) ∧ (-6 : Int) < IotaIter.end_for 0 (-7) 3 ∧
    IotaIter.end_for 0 10 (-3) = 6 ∧ IotaIter.end_for 0 10 (-3) < 10 := by
  refine ⟨by decide, by decide, ⟨-2, by decide⟩, by decide, by decide, by decide⟩

/-- **C1** at the failing input `iota (0, 10, 3)`: the iterator value that
`hb_iota_iter_t::__end__` (line 594) constructs — and then discards, since the
statement `hb_iota_iter_t (end, end, step);` lacks a `return`, making the
function fall off its end — is indeed the exhausted position, equal to the
current position advanced by `length ()` steps; the code merely fails to
return it. -/
theorem hb_iota_end_missing_return :
    IotaIter.more (IotaIter.end_constructed (IotaIter.mk' 0 10 3)) = false ∧
    IotaIter.forward (IotaIter.mk' 0 10 3) (IotaIter.len (IotaIter.mk' 0 10 3)).toNat =
      IotaIter.end_constructed (IotaIter.mk' 0 10 3) ∧
    IotaIter.len (IotaIter.mk' 0 10 3) = 4 := by
  refine ⟨by decide, by decide, by decide⟩

/-!
### `hb_reduce_t` (src/hb-iter.hh:424-452)
-/

/-- The loop of `hb_reduce_t::operator ()` (lines 433-439):
`AccuT value = init_value; for (; it; ++it) value = r (value, *it);
return value;`, fuel-bounded (the cursor's remaining length always
suffices). -/
def hb_reduce_loop [Inhabited α] (r : A → α → A) : Nat → A → ArrayIter α → A
  | 0, acc, _ => acc
  | fuel + 1, acc, it =>
    if it.more then hb_reduce_loop r fuel (r acc it.item) it.next else acc

def hb_reduce [Inhabited α] (r : A → α → A) (init : A) (it : ArrayIter α) : A :=
  hb_reduce_loop r it.len init it

theorem hb_reduce_loop_foldl [Inhabited α] (r : A → α → A) :
    ∀ (fuel : Nat) (it : ArrayIter α) (acc : A), it.len ≤ fuel →
      hb_reduce_loop r fuel acc it = List.foldl r acc it.rest
  | 0, it, acc, hfuel => by
    have : it.rest = [] :=
      List.eq_nil_of_length_eq_zero (by rw [ArrayIter.rest_length]; omega)
    rw [this]
    rfl
  | fuel + 1, it, acc, hfuel => by
    rcases h : it.rest with _ | ⟨x, xs⟩
    · have hmore : it.more = false := (ArrayIter.not_more_iff it).2 h
      simp [hb_reduce_loop, hmore]
    · obtain ⟨hmore, hitem, hnext⟩ := ArrayIter.rest_cons h
      have hlen : it.next.len ≤ fuel := by
        have h1 : it.next.len = xs.length := by rw [← ArrayIter.rest_length, hnext]
        have h2 : it.len = xs.length + 1 := by rw [← ArrayIter.rest_length, h]; rfl
        omega
      have ih := hb_reduce_loop_foldl r fuel it.next (r acc x) hlen
      simp only [hb_reduce_loop, hmore, if_true, hitem]
      rw [ih, hnext, List.foldl_cons]

/-- **C6**.  `reduce (s, op, init)` is a left fold in a single forward pass:
the loop's result equals `List.foldl op init` over the remaining items — the
accumulator is updated as `acc = op (acc, item)` once per item in traversal
order — and an empty sequence returns `init` unchanged. -/
theorem hb_reduce_left_fold [Inhabited α] (r : A → α → A) (init : A) (it : ArrayIter α) :
    hb_reduce r init it = List.foldl r init it.rest ∧
    (it.rest = [] → hb_reduce r init it = init) := by
  have h : hb_reduce r init it = List.foldl r init it.rest :=
    hb_reduce_loop_foldl r it.len it init (Nat.le_refl _)
  exact ⟨h, fun hnil => by rw [h, hnil]; rfl⟩

/-- Witness for C6's theorem: reducing the empty sequence with addition and
initial value 0 returns 0. -/
theorem hb_reduce_left_fold_witness :
    hb_reduce (fun a b : Nat => a + b) 0 ⟨[], 0⟩ = 0 :=
  (hb_reduce_left_fold (fun a b => a + b) 0 ⟨[], 0⟩).2 rfl

/-!
### `hb_all` / `hb_any` / `hb_none` (src/hb-iter.hh:708-758)

Each is a loop `for (auto it = hb_iter (c); it; ++it)` testing
`hb_match (p, hb_get (f, *it))` on each item in turn; the list argument is the
stream of items the iterator yields.  The `Count` variants additionally report
how many items the loop consumed (dereferenced) before returning — the
instrumentation the spec calls for to verify short-circuiting.
-/

/-- `hb_all` (lines 708-724): `if (!p (f (*it))) return false;` per item,
`true` at exhaustion. -/
def hb_all (p : β → Bool) (f : α → β) : List α → Bool
  | [] => true
  | x :: xs => if p (f x) then hb_all p f xs else false

/-- `hb_any` (lines 725-741): `if (p (f (*it))) return true;` per item,
`false` at exhaustion. -/
def hb_any (p : β → Bool) (f : α → β) : List α → Bool
  | [] => false
  | x :: xs => if p (f x) then true else hb_any p f xs

/-- `hb_none` (lines 742-758): `if (p (f (*it))) return false;` per item,
`true` at exhaustion. -/
def hb_none (p : β → Bool) (f : α → β) : List α → Bool
  | [] => true
  | x :: xs => if p (f x) then false else hb_none p f xs

/-- `hb_any` instrumented with the number of items consumed. -/
def hb_anyCount (p : β → Bool) (f : α → β) : List α → Bool × Nat
  | [] => (false, 0)
  | x :: xs =>
    if p (f x) then (true, 1)
    else ((hb_anyCount p f xs).1, (hb_anyCount p f xs).2 + 1)

/-- `hb_all` instrumented with the number of items consumed. -/
def hb_allCount (p : β → Bool) (f : α → β) : List α → Bool × Nat
  | [] => (true, 0)
  | x :: xs =>
    if p (f x) then ((hb_allCount p f xs).1, (hb_allCount p f xs).2 + 1)
    else (false, 1)

/-- `hb_none` instrumented with the number of items consumed. -/
def hb_noneCount (p : β → Bool) (f : α → β) : List α → Bool × Nat
  | [] => (true, 0)
  | x :: xs =>
    if p (f x) then (false, 1)
    else ((hb_noneCount p f xs).1, (hb_noneCount p f xs).2 + 1)

theorem hb_anyCount_first_match (p : β → Bool) (f : α → β) (x : α) (post : List α)
    (hx : p (f x) = true) :
    ∀ pre : List α, (∀ z ∈ pre, p (f z) = false) →
      hb_anyCount p f (pre ++ x :: post) = (true, pre.length + 1)
  | [], _ => by simp [hb_anyCount, hx]
  | z :: zs, hpre => by
    have hz : p (f z) = false := hpre z (by simp)
    have ih := hb_anyCount_first_match p f x post hx zs (fun w hw => hpre w (by simp [hw]))
    simp [hb_anyCount, hz, ih]

theorem hb_noneCount_first_match (p : β → Bool) (f : α → β) (x : α) (post : List α)
    (hx : p (f x) = true) :
    ∀ pre : List α, (∀ z ∈ pre, p (f z) = false) →
      hb_noneCount p f (pre ++ x :: post) = (false, pre.length + 1)
  | [], _ => by simp [hb_noneCount, hx]
  | z :: zs, hpre => by
    have hz : p (f z) = false := hpre z (by simp)
    have ih := hb_noneCount_first_match p f x post hx zs (fun w hw => hpre w (by simp [hw]))
    simp [hb_noneCount, hz, ih]

theorem hb_allCount_first_failure (p : β → Bool) (f : α → β) (y : α) (post : List α)
    (hy : p (f y) = false) :
    ∀ pre : List α, (∀ z ∈ pre, p (f z) = true) →
      hb_allCount p f (pre ++ y :: post) = (false, pre.length + 1)
  | [], _ => by simp [hb_allCount, hy]
  | z :: zs, hpre => by
    have hz : p (f z) = true := hpre z (by simp)
    have ih := hb_allCount_first_failure p f y post hy zs (fun w hw => hpre w (by simp [hw]))
    simp [hb_allCount, hz, ih]

/-- **C5**.  `any` returns true at the first matching item, consuming exactly
the items up to and including it — in particular, with an always-true
predicate it consumes exactly one item of an arbitrarily long (unbounded)
tail; `all` returns false at the first failing item under the same count; and
`none` returns false at the first matching item under the same count: none of
the three traverses past the deciding item. -/
theorem hb_short_circuit (p : β → Bool) (f : α → β)
    (pre : List α) (x : α) (post : List α) (pre' : List α) (y : α) (post' : List α)
    (hpre : ∀ z ∈ pre, p (f z) = false) (hx : p (f x) = true)
    (hpre' : ∀ z ∈ pre', p (f z) = true) (hy : p (f y) = false) :
    hb_anyCount p f (pre ++ x :: post) = (true, pre.length + 1) ∧
    hb_noneCount p f (pre ++ x :: post) = (false, pre.length + 1) ∧
    hb_allCount p f (pre' ++ y :: post') = (false, pre'.length + 1) ∧
    (∀ (z : α) (zs : List α), hb_anyCount (fun _ => true) (fun w : α => w) (z :: zs) = (true, 1)) :=
  ⟨hb_anyCount_first_match p f x post hx pre hpre,
   hb_noneCount_first_match p f x post hx pre hpre,
   hb_allCount_first_failure p f y post' hy pre' hpre',
   fun z zs => by simp [hb_anyCount]⟩

/-- Witness for C5's theorem: over `[1] ++ 2 :: [99, 100]` with predicate
"even", `any` answers true after consuming exactly 2 items. -/
theorem hb_short_circuit_witness :
    hb_anyCount (fun n : Nat => n % 2 == 0) id ([1] ++ 2 :: [99, 100]) = (true, 2) :=
  (hb_short_circuit (fun n : Nat => n % 2 == 0) id [1] 2 [99, 100] [2] 1 [7]
    (by decide) (by decide) (by decide) (by decide)).1

/-- **C8**.  For every finite sequence and predicate, `none (s, p)` is the
boolean negation of `any (s, p)`, and `all (s, p)` equals
`none (s, negate p)`. -/
theorem hb_none_not_any (p : β → Bool) (f : α → β) (l : List α) :
    hb_none p f l = !hb_any p f l ∧ hb_all p f l = hb_none (fun b => !p b) f l := by
  induction l with
  | nil => exact ⟨rfl, rfl⟩
  | cons x xs ih =>
    cases hq : p (f x) <;>
      simp [hb_none, hb_any, hb_all, hq, ih.1, ih.2]

/-!
### Static capability flags

`is_sorted_iterator` is a `static constexpr bool` per concrete iterator type:
`hb_iter_t` defaults it to `false` (line 71); `hb_map_iter_t` declares no
override, so a map inherits the default; `hb_filter_iter_t` copies its input's
flag (line 385); `hb_zip_iter_t` conjoins its inputs' flags (lines 469-471);
`hb_enumerate_iter_t` is constant `true` (line 510); `hb_iota_iter_t` is
constant `true` (line 585).  `IterShape` abstracts a composed pipeline of
these adaptors over sources with declared flags, and `is_sorted` resolves the
flag exactly as the C++ constants do. -/
inductive IterShape : Type
  | src (sorted : Bool)
  | map (i : IterShape)
  | filter (i : IterShape)
  | zip (a b : IterShape)
  | enumerate (i : IterShape)
  | iota
deriving DecidableEq, Repr

def IterShape.is_sorted : IterShape → Bool
  | .src s => s
  | .map _ => false
  | .filter i => i.is_sorted
  | .zip a b => a.is_sorted && b.is_sorted
  | .enumerate _ => true
  | .iota => true

/-- **C7**.  The static Sorted flag propagates conservatively through every
adaptor: Enumerate reports true whatever its input reports; Filter reports
exactly its input's flag; Zip reports true iff both inputs do; Map reports
false (this version of the code has no mechanism for a caller to assert
monotonicity, so the flag is the inherited `hb_iter_t` default); Iota reports
true. -/
theorem hb_sorted_flag_propagation :
    (∀ i : IterShape, (IterShape.enumerate i).is_sorted = true) ∧
    (∀ i : IterShape, (IterShape.filter i).is_sorted = i.is_sorted) ∧
    (∀ a b : IterShape,
      ((IterShape.zip a b).is_sorted = true ↔ (a.is_sorted = true ∧ b.is_sorted = true))) ∧
    (∀ i : IterShape, (IterShape.map i).is_sorted = false) ∧
    IterShape.iota.is_sorted = true := by
  refine ⟨fun i => rfl, fun i => rfl, fun a b => ?_, fun i => rfl, rfl⟩
  simp [IterShape.is_sorted, Bool.and_eq_true]
